import Mathlib

/-!
Shallow embedding of the `cross-player-obsidian` plugin core (`src/main.ts`)
and verification of its natural-language specification.

Modelling conventions:
* TypeScript `MediaItem` objects become a Lean structure; the optional
  `finished?: boolean` is modelled as a `Bool` with the absent value `false`,
  and the optional `size?: number` as `Option Nat`.
* JavaScript truthiness on numbers (`!existing.duration`) is `= 0`;
  on `Option Nat` values (`!existing.size`) it is `none` or `some 0`.
* In-place mutation of an object found in the queue array is modelled by
  rewriting the first element of the list satisfying the search predicate
  (mirroring `Array.prototype.find` returning a reference to the first match).
* String operations (`startsWith`, `includes`, `replace`, `split('.')` )
  are implemented over `String.data` character lists with JavaScript
  semantics; `replace` with a string pattern rewrites the first occurrence
  ($-substitution patterns in the replacement string do not occur in paths
  handled here and are not modelled).
-/

/-- Playback status of a media item (`'pending' | 'playing' | 'completed'`). -/
inductive MStatus
  | pending
  | playing
  | completed
deriving DecidableEq, Repr

/-- One tracked media file (interface `MediaItem` in `src/types.ts`). -/
structure MediaItem where
  id : String
  path : String
  name : String
  status : MStatus
  finished : Bool
  position : Nat
  duration : Nat
  size : Option Nat
deriving DecidableEq, Repr

/-- JavaScript `s.startsWith(p)`. -/
def strStartsWith (s p : String) : Bool :=
  p.data.isPrefixOf s.data

/-- JavaScript `s.includes(p)` (substring test). -/
def strContains (s p : String) : Bool :=
  decide (p.data <:+: s.data)

/-- JavaScript `s.replace(pat, rep)` with a string pattern: rewrite the first
occurrence of `pat` in `s` (the whole string is returned unchanged when there
is no occurrence). -/
def jsReplaceData (s pat rep : List Char) : List Char :=
  match s with
  | [] => if pat = [] then rep else []
  | c :: cs =>
    if pat.isPrefixOf (c :: cs) then rep ++ (c :: cs).drop pat.length
    else c :: jsReplaceData cs pat rep

/-- String wrapper for `jsReplaceData`. -/
def jsReplace (s pat rep : String) : String :=
  ⟨jsReplaceData s.data pat.data rep.data⟩

/-- JavaScript `s.toLowerCase()` (ASCII range, which is all the code
compares: file extensions and names). -/
def strToLower (s : String) : String :=
  ⟨s.data.map Char.toLower⟩

/-- Update the first element of `q` satisfying `p` by `f`, leaving everything
else in place (models mutating the object returned by `Array.find`). -/
def updateFirstBy (p : MediaItem → Bool) (f : MediaItem → MediaItem) :
    List MediaItem → List MediaItem
  | [] => []
  | x :: xs => if p x then f x :: xs else x :: updateFirstBy p f xs

/-- The demotion applied to the previously playing item in `playMedia`
(`main.ts:708-714`): `completed` when its `finished` flag is set, else
`pending`. -/
def demotePlaying (i : MediaItem) : MediaItem :=
  { i with status := if i.finished then .completed else .pending }

/-- The promotion applied to the selected item in `playMedia`
(`main.ts:716-720`): a `completed` item being replayed first gets
`finished := true`, then `status := 'playing'`. -/
def promotePlaying (i : MediaItem) : MediaItem :=
  { i with
    finished := if i.status = .completed then true else i.finished
    status := .playing }

/-- First half of `playMedia` (`main.ts:706-714`): the first item with
`status = 'playing'` is demoted when it is a different item than the one
selected. -/
def playMediaStep1 (q : List MediaItem) (itemId : String) : List MediaItem :=
  match q.find? (fun i => decide (i.status = .playing)) with
  | none => q
  | some cp =>
    if cp.id = itemId then q
    else q.map (fun i => if i.id = cp.id then demotePlaying i else i)

/-- Queue effect of `playMedia(item)` (`main.ts:703-728`), the selected item
given by its id: demote the previous playing item, then promote the selected
one to `'playing'`. -/
def playMedia (q : List MediaItem) (itemId : String) : List MediaItem :=
  (playMediaStep1 q itemId).map
    (fun i => if i.id = itemId then promotePlaying i else i)

/-- A queue has at most one `'playing'` item when any two playing members
share an id. -/
def AtMostOnePlaying (q : List MediaItem) : Prop :=
  ∀ x ∈ q, ∀ y ∈ q, x.status = .playing → y.status = .playing → x.id = y.id

/-- Iterated `playMedia` over a list of selected ids. -/
def playSeq (q : List MediaItem) (ids : List String) : List MediaItem :=
  ids.foldl playMedia q

theorem map_preserves_ids (q : List MediaItem) (f : MediaItem → MediaItem)
    (h : ∀ x, (f x).id = x.id) :
    (q.map f).map MediaItem.id = q.map MediaItem.id := by
  rw [List.map_map]
  exact List.map_congr_left (fun a _ => h a)

theorem playMediaStep1_ids (q : List MediaItem) (itemId : String) :
    (playMediaStep1 q itemId).map MediaItem.id = q.map MediaItem.id := by
  unfold playMediaStep1
  split
  · rfl
  · next cp _ =>
    split
    · rfl
    · apply map_preserves_ids
      intro x
      by_cases hx : x.id = cp.id
      all_goals simp [demotePlaying, hx]

theorem playMedia_ids (q : List MediaItem) (itemId : String) :
    (playMedia q itemId).map MediaItem.id = q.map MediaItem.id := by
  unfold playMedia
  rw [map_preserves_ids]
  · exact playMediaStep1_ids q itemId
  · intro x
    by_cases hx : x.id = itemId
    all_goals simp [promotePlaying, hx]


theorem step1_not_playing (q : List MediaItem) (itemId : String)
    (hq : AtMostOnePlaying q) {x : MediaItem}
    (hx : x ∈ playMediaStep1 q itemId) (hxid : x.id ≠ itemId) :
    x.status ≠ .playing := by
  intro hplay
  unfold playMediaStep1 at hx
  split at hx
  · next hf =>
    have := List.find?_eq_none.mp hf x hx
    simp at this
    exact this hplay
  · next cp hf =>
    have hcp_mem : cp ∈ q := List.mem_of_find?_eq_some hf
    have hcp_play : cp.status = .playing := by
      have := List.find?_some hf
      simpa using this
    split at hx
    · next hcpid =>
      exact hxid ((hq x hx cp hcp_mem hplay hcp_play).trans hcpid)
    · next hcpid =>
      rcases List.mem_map.mp hx with ⟨y, hy, hxy⟩
      by_cases hycp : y.id = cp.id
      · rw [if_pos hycp] at hxy
        subst hxy
        cases hfin : y.finished <;> simp [demotePlaying, hfin] at hplay
      · rw [if_neg hycp] at hxy
        subst hxy
        exact hycp (hq y hy cp hcp_mem hplay hcp_play)

theorem playMedia_playing_iff (q : List MediaItem) (itemId : String)
    (hq : AtMostOnePlaying q) :
    ∀ j ∈ playMedia q itemId, (j.status = .playing ↔ j.id = itemId) := by
  intro j hj
  unfold playMedia at hj
  rcases List.mem_map.mp hj with ⟨x, hx, rfl⟩
  by_cases hxid : x.id = itemId
  · rw [if_pos hxid]
    simp [promotePlaying, hxid]
  · rw [if_neg hxid]
    constructor
    · intro hplay
      exact absurd hplay (step1_not_playing q itemId hq hx hxid)
    · intro h
      exact absurd h hxid

theorem playMedia_atMostOne (q : List MediaItem) (itemId : String)
    (hq : AtMostOnePlaying q) : AtMostOnePlaying (playMedia q itemId) := by
  intro x hx y hy hxp hyp
  rw [(playMedia_playing_iff q itemId hq x hx).mp hxp,
      (playMedia_playing_iff q itemId hq y hy).mp hyp]

theorem playMedia_mem_selected (q : List MediaItem) (itemId : String)
    (hmem : itemId ∈ q.map MediaItem.id) :
    ∃ j ∈ playMedia q itemId, j.id = itemId ∧ j.status = .playing := by
  have h1 : itemId ∈ (playMediaStep1 q itemId).map MediaItem.id := by
    rw [playMediaStep1_ids]; exact hmem
  rcases List.mem_map.mp h1 with ⟨x, hx, hxid⟩
  refine ⟨promotePlaying x, ?_, ?_, rfl⟩
  · unfold playMedia
    exact List.mem_map.mpr ⟨x, hx, by rw [if_pos hxid]⟩
  · simp [promotePlaying, hxid]

theorem playSeq_ids (q : List MediaItem) (ids : List String) :
    (playSeq q ids).map MediaItem.id = q.map MediaItem.id := by
  induction ids generalizing q with
  | nil => rfl
  | cons i rest ih =>
    show (playSeq (playMedia q i) rest).map MediaItem.id = _
    rw [ih, playMedia_ids]

theorem playSeq_exact (ids : List String) :
    ∀ (q : List MediaItem), AtMostOnePlaying q →
    (∀ i ∈ ids, i ∈ q.map MediaItem.id) → ∀ (hne : ids ≠ []),
    ∀ j ∈ playSeq q ids, (j.status = .playing ↔ j.id = ids.getLast hne) := by
  induction ids with
  | nil =>
    intro q _ _ hne
    exact absurd rfl hne
  | cons i rest ih =>
    intro q hq hsub hne j hj
    cases rest with
    | nil => exact playMedia_playing_iff q i hq j hj
    | cons r rs =>
      have hq' := playMedia_atMostOne q i hq
      have hsub' : ∀ x ∈ r :: rs, x ∈ (playMedia q i).map MediaItem.id := by
        intro x hx
        rw [playMedia_ids]
        exact hsub x (List.mem_cons_of_mem _ hx)
      have h := ih (playMedia q i) hq' hsub' (by simp) j hj
      rwa [List.getLast_cons (by simp : (r :: rs) ≠ [])]

theorem playSeq_atMostOne (ids : List String) :
    ∀ (q : List MediaItem), AtMostOnePlaying q →
    AtMostOnePlaying (playSeq q ids) := by
  induction ids with
  | nil => intro q hq; exact hq
  | cons i rest ih =>
    intro q hq
    exact ih (playMedia q i) (playMedia_atMostOne q i hq)

theorem demoted_mem_playMedia (q : List MediaItem) (itemId : String)
    (cp : MediaItem)
    (hf : q.find? (fun i => decide (i.status = .playing)) = some cp)
    (hcpid : cp.id ≠ itemId) :
    demotePlaying cp ∈ playMedia q itemId := by
  have hcp_mem : cp ∈ q := List.mem_of_find?_eq_some hf
  have h1 : demotePlaying cp ∈ playMediaStep1 q itemId := by
    simp only [playMediaStep1, hf, if_neg hcpid]
    exact List.mem_map.mpr ⟨cp, hcp_mem, by rw [if_pos rfl]⟩
  unfold playMedia
  refine List.mem_map.mpr ⟨demotePlaying cp, h1, ?_⟩
  have hid : (demotePlaying cp).id = cp.id := rfl
  rw [if_neg (by rw [hid]; exact hcpid)]

/-- Sample media items for concrete evaluations. -/
def itemA : MediaItem :=
  ⟨"a", "WatchedRoot/a.mp4", "a.mp4", .playing, true, 3, 10, some 5⟩

/-- Sample media item with `status = 'pending'`. -/
def itemB : MediaItem :=
  ⟨"b", "WatchedRoot/b.mp4", "b.mp4", .pending, false, 0, 20, some 7⟩

/-- C1: at most one MediaItem in the queue has `status = 'playing'` at any
time: whenever a new item transitions to `'playing'`, the previously playing
item (if different) is demoted to `'pending'`, or to `'completed'` if its
`finished` flag was already true; after any sequence of `playMedia` calls
starting from a queue with at most one playing item, exactly the last
selected item has status `'playing'`. -/
theorem claim_C1 (q : List MediaItem) (ids : List String) (hne : ids ≠ [])
    (hq : AtMostOnePlaying q)
    (hsub : ∀ i ∈ ids, i ∈ q.map MediaItem.id) :
    (∀ (itemId : String) (cp : MediaItem),
      q.find? (fun i => decide (i.status = .playing)) = some cp →
      cp.id ≠ itemId →
      { cp with status := if cp.finished then MStatus.completed
                          else MStatus.pending } ∈ playMedia q itemId) ∧
    AtMostOnePlaying (playSeq q ids) ∧
    (∃ j ∈ playSeq q ids, j.id = ids.getLast hne ∧ j.status = .playing) ∧
    (∀ j ∈ playSeq q ids, (j.status = .playing ↔ j.id = ids.getLast hne)) := by
  refine ⟨?_, ?_, ?_, ?_⟩
  · intro itemId cp hf hcpid
    exact demoted_mem_playMedia q itemId cp hf hcpid
  · exact playSeq_atMostOne ids q hq
  · have hlastmem : ids.getLast hne ∈ ids := List.getLast_mem hne
    have h1 : ids.getLast hne ∈ (playSeq q ids).map MediaItem.id := by
      rw [playSeq_ids]
      exact hsub _ hlastmem
    rcases List.mem_map.mp h1 with ⟨j, hj, hjid⟩
    exact ⟨j, hj, hjid,
      (playSeq_exact ids q hq hsub hne j hj).mpr hjid⟩
  · exact playSeq_exact ids q hq hsub hne

/-- Witness for C1 on the concrete queue `[itemA, itemB]` with `itemA`
playing and finished: selecting `itemB` demotes `itemA`, and since
`itemA.finished` is true the demotion is to `'completed'`. -/
theorem claim_C1_witness :
    { itemA with status := if itemA.finished then MStatus.completed
                           else MStatus.pending } ∈
      playMedia [itemA, itemB] "b" := by
  have h := claim_C1 [itemA, itemB] ["b"] (by decide)
    (by unfold AtMostOnePlaying; decide) (by decide)
  exact h.1 "b" itemA (by decide) (by decide)

/-- `updateStatus(id, status)` (`main.ts:777-786`): find the item by id and
set its status; `'completed'` additionally sets `finished := true`. -/
def updateStatus (q : List MediaItem) (id : String) (st : MStatus) :
    List MediaItem :=
  updateFirstBy (fun i => decide (i.id = id))
    (fun i => { i with
      status := st
      finished := if st = .completed then true else i.finished }) q

/-- Queue effect of `setMediaItemAsUnread(item)` (`main.ts:915-933`): the
item is reset to `status = 'pending'`, `finished = false`, `position = 0`. -/
def setMediaItemAsUnread (q : List MediaItem) (id : String) :
    List MediaItem :=
  q.map (fun i =>
    if i.id = id then { i with status := .pending, finished := false, position := 0 }
    else i)

theorem updateFirstBy_sel (p : MediaItem → Bool) (f : MediaItem → MediaItem) :
    ∀ (q : List MediaItem), (∃ x ∈ q, p x = true) →
    ∃ x ∈ q, p x = true ∧ f x ∈ updateFirstBy p f q := by
  intro q
  induction q with
  | nil => rintro ⟨x, hx, -⟩; exact absurd hx (List.not_mem_nil x)
  | cons a as ih =>
    rintro ⟨x, hx, hpx⟩
    by_cases hpa : p a = true
    · exact ⟨a, List.mem_cons_self a as, hpa, by
        simp [updateFirstBy, hpa]⟩
    · rcases List.mem_cons.mp hx with rfl | hxas
      · exact absurd hpx hpa
      · rcases ih ⟨x, hxas, hpx⟩ with ⟨y, hy, hpy, hfy⟩
        refine ⟨y, List.mem_cons_of_mem a hy, hpy, ?_⟩
        simp [updateFirstBy, hpa]
        exact Or.inr hfy

/-- Sample item with `status = 'completed'` but `finished` unset (as loaded
from legacy persisted data). -/
def itemC : MediaItem :=
  ⟨"c", "WatchedRoot/c.mp4", "c.mp4", .completed, false, 0, 10, some 5⟩

/-- C5 counterexample: `itemA.finished = true`, yet after
`setMediaItemAsUnread` the item's `finished` flag is `false` — the code
clears the flag (`main.ts:920`) instead of leaving it true. -/
theorem claim_C5_counterexample :
    itemA.finished = true ∧
    ∀ j ∈ setMediaItemAsUnread [itemA] "a",
      j.status = .pending ∧ j.position = 0 ∧ j.finished = false := by
  decide

/-- C5 (amended): for every item, marking it unread resets its status to
`'pending'` and its position to 0 and clears the `finished` flag to `false`
(all other fields unchanged); items with a different id are untouched. -/
theorem claim_C5 (q : List MediaItem) (id : String) :
    (∀ i ∈ q, i.id = id →
      { i with status := MStatus.pending, finished := false, position := 0 }
        ∈ setMediaItemAsUnread q id) ∧
    (∀ i ∈ q, i.id ≠ id → i ∈ setMediaItemAsUnread q id) ∧
    (setMediaItemAsUnread q id).length = q.length := by
  refine ⟨?_, ?_, by simp [setMediaItemAsUnread]⟩
  · intro i hi hid
    exact List.mem_map.mpr ⟨i, hi, by rw [if_pos hid]⟩
  · intro i hi hid
    exact List.mem_map.mpr ⟨i, hi, by rw [if_neg hid]⟩

/-- Witness for C5 (amended) at the concrete queue `[itemA]`. -/
theorem claim_C5_witness :
    { itemA with status := MStatus.pending, finished := false, position := 0 }
      ∈ setMediaItemAsUnread [itemA] "a" :=
  (claim_C5 [itemA] "a").1 itemA (by decide) (by decide)

theorem playMediaStep1_length (q : List MediaItem) (itemId : String) :
    (playMediaStep1 q itemId).length = q.length := by
  unfold playMediaStep1
  split
  · rfl
  · split
    · rfl
    · exact List.length_map q _

theorem playMedia_length (q : List MediaItem) (itemId : String) :
    (playMedia q itemId).length = q.length := by
  unfold playMedia
  rw [List.length_map, playMediaStep1_length]

theorem playMediaStep1_getElem (q : List MediaItem) (itemId : String)
    (k : Nat) (hk : k < q.length) :
    (playMediaStep1 q itemId)[k]? = some q[k] ∨
    ((playMediaStep1 q itemId)[k]? = some (demotePlaying q[k]) ∧
      q[k].id ≠ itemId) := by
  simp only [playMediaStep1]
  cases hf : q.find? (fun i => decide (i.status = .playing)) with
  | none =>
    left
    rw [List.getElem?_eq_getElem hk]
  | some cp =>
    dsimp only
    by_cases hcpid : cp.id = itemId
    · left
      rw [if_pos hcpid, List.getElem?_eq_getElem hk]
    · rw [if_neg hcpid]
      by_cases h : q[k].id = cp.id
      · right
        refine ⟨?_, by rw [h]; exact hcpid⟩
        rw [List.getElem?_map, List.getElem?_eq_getElem hk]
        simp [h]
      · left
        rw [List.getElem?_map, List.getElem?_eq_getElem hk]
        simp [h]

theorem playMedia_finished_eq (q : List MediaItem) (itemId : String)
    (k : Nat) (hk : k < q.length)
    (hk2 : k < (playMedia q itemId).length) :
    ((playMedia q itemId).get ⟨k, hk2⟩).finished =
      (if q[k].id = itemId ∧ q[k].status = .completed
       then true else q[k].finished) := by
  have h2 : (playMedia q itemId)[k]? =
      some ((playMedia q itemId).get ⟨k, hk2⟩) := by
    rw [List.getElem?_eq_getElem hk2, List.get_eq_getElem]
  have hmap : (playMedia q itemId)[k]? =
      ((playMediaStep1 q itemId)[k]?).map
        (fun i => if i.id = itemId then promotePlaying i else i) := by
    unfold playMedia
    exact List.getElem?_map _ _ _
  rcases playMediaStep1_getElem q itemId k hk with h1 | ⟨h1, hne⟩
  · rw [hmap, h1, Option.map_some'] at h2
    rw [← Option.some.inj h2]
    by_cases h : q[k].id = itemId
    · by_cases hs : q[k].status = .completed <;>
        simp [promotePlaying, h, hs]
    · simp [h]
  · rw [hmap, h1, Option.map_some'] at h2
    rw [← Option.some.inj h2]
    simp [demotePlaying, hne]

/-- C6 counterexample: `updateStatus(..., 'completed')` is not the only
operation setting `finished`: `playMedia` on `itemC` (status `'completed'`,
`finished = false`) also sets `finished := true` (`main.ts:716-718`). -/
theorem claim_C6_counterexample :
    itemC.finished = false ∧
    ∀ j ∈ playMedia [itemC] "c", j.finished = true := by
  decide

/-- C6 (amended): `updateStatus(id, 'completed')` sets the found item's
`finished` flag to `true` (and its status to `'completed'`); but it is not
the only such operation: `playMedia` sets an item's `finished` flag to
`true` exactly when the item is the selected one and its status is already
`'completed'`, and leaves every other `finished` flag unchanged. -/
theorem claim_C6 (q : List MediaItem) (id : String) :
    ((∃ i ∈ q, i.id = id) →
      ∃ j ∈ updateStatus q id .completed,
        j.id = id ∧ j.status = .completed ∧ j.finished = true) ∧
    (∀ (k : Nat) (hk : k < q.length)
      (hk2 : k < (playMedia q id).length),
      ((playMedia q id).get ⟨k, hk2⟩).finished =
        (if q[k].id = id ∧ q[k].status = .completed
         then true else q[k].finished)) := by
  constructor
  · rintro ⟨i, hi, hid⟩
    rcases updateFirstBy_sel (fun i => decide (i.id = id))
      (fun i => { i with
        status := MStatus.completed
        finished := if MStatus.completed = MStatus.completed then true
                    else i.finished }) q
      ⟨i, hi, by simp [hid]⟩ with ⟨x, hx, hpx, hmem⟩
    exact ⟨_, hmem, by simpa using hpx, rfl, by simp⟩
  · intro k hk hk2
    exact playMedia_finished_eq q id k hk hk2

/-- Witness for C6 (amended): replaying the completed `itemC` sets its
`finished` flag. -/
theorem claim_C6_witness :
    ((playMedia [itemC] "c").get ⟨0, by decide⟩).finished =
      (if itemC.id = "c" ∧ itemC.status = .completed
       then true else itemC.finished) :=
  (claim_C6 [itemC] "c").2 0 (by decide) (by decide)

/-- A vault file as seen by the reconciler (`TFile`): path, name, extension,
stat size, and the duration the external media prober would report for it. -/
structure VFile where
  path : String
  name : String
  extension : String
  size : Nat
  probedDuration : Nat
deriving DecidableEq, Repr

/-- The supported media extensions (`main.ts:621`). -/
def validExtensions : List String :=
  ["mp4", "webm", "ogv", "mp3", "wav", "ogg", "mkv"]

/-- JavaScript falsiness of the optional `size` field (`!existing.size`):
absent or zero. -/
def sizeFalsy : Option Nat → Bool
  | none => true
  | some n => n == 0

/-- The backfill applied to an already-tracked item (`main.ts:643-655`):
duration is re-probed when it is falsy (0), size is re-stat'ed when falsy. -/
def backfillExisting (f : VFile) (i : MediaItem) : MediaItem :=
  let i1 := if i.duration = 0 then { i with duration := f.probedDuration } else i
  if sizeFalsy i1.size then { i1 with size := some f.size } else i1

/-- The fresh `MediaItem` created on first discovery (`main.ts:629-637`):
`status = 'pending'`, `position = 0`, probed duration, stat size, and a
random id supplied as a parameter. -/
def newItemOf (freshId : String) (f : VFile) : MediaItem :=
  ⟨freshId, f.path, f.name, .pending, false, 0, f.probedDuration, some f.size⟩

/-- `handleFileChange(file)` for a `TFile` (`main.ts:600-656`), with the
fresh random id supplied as a parameter.  Hidden files, files outside the
watched folder, and unsupported extensions are ignored; an untracked path is
appended as a new pending item; a tracked path only has missing
duration/size backfilled. -/
def handleFileChange (freshId : String) (folderPath : String)
    (q : List MediaItem) (f : VFile) : List MediaItem :=
  if folderPath = "" then q
  else if strStartsWith f.name "." || strContains f.path "/." then q
  else if ¬ (strStartsWith f.path (folderPath ++ "/") = true) then q
  else if ¬ (validExtensions.contains (strToLower f.extension) = true) then q
  else
    match q.find? (fun i => decide (i.path = f.path)) with
    | some _ => updateFirstBy (fun i => decide (i.path = f.path))
        (backfillExisting f) q
    | none => q ++ [newItemOf freshId f]

theorem updateFirstBy_length (p : MediaItem → Bool)
    (f : MediaItem → MediaItem) :
    ∀ (q : List MediaItem), (updateFirstBy p f q).length = q.length := by
  intro q
  induction q with
  | nil => rfl
  | cons a as ih =>
    by_cases hpa : p a = true
    · simp [updateFirstBy, hpa]
    · simp only [updateFirstBy, if_neg hpa, List.length_cons, ih]

theorem updateFirstBy_getElem (p : MediaItem → Bool)
    (f : MediaItem → MediaItem) :
    ∀ (q : List MediaItem) (k : Nat) (hk : k < q.length)
      (hk2 : k < (updateFirstBy p f q).length),
      (updateFirstBy p f q).get ⟨k, hk2⟩ = q[k] ∨
      (p q[k] = true ∧ (updateFirstBy p f q).get ⟨k, hk2⟩ = f q[k]) := by
  intro q
  induction q with
  | nil => intro k hk; exact absurd hk (by simp)
  | cons a as ih =>
    intro k hk hk2
    by_cases hpa : p a = true
    · cases k with
      | zero => right; exact ⟨hpa, by simp [updateFirstBy, hpa]⟩
      | succ n =>
        left
        have : updateFirstBy p f (a :: as) = f a :: as := by
          simp [updateFirstBy, hpa]
        rw [List.get_eq_getElem]
        simp only [this] at hk2 ⊢
        simp
    · have hrw : updateFirstBy p f (a :: as) = a :: updateFirstBy p f as := by
        simp [updateFirstBy, hpa]
      cases k with
      | zero =>
        left
        rw [List.get_eq_getElem]
        simp only [hrw]
        simp
      | succ n =>
        have hn : n < as.length := by simpa using hk
        have hn2 : n < (updateFirstBy p f as).length := by
          rw [updateFirstBy_length]; exact hn
        have := ih n hn hn2
        rw [List.get_eq_getElem] at this ⊢
        simp only [hrw]
        simpa using this

theorem updateFirstBy_countP (p pr : MediaItem → Bool)
    (f : MediaItem → MediaItem) (hf : ∀ x, pr (f x) = pr x) :
    ∀ (q : List MediaItem),
      (updateFirstBy p f q).countP pr = q.countP pr := by
  intro q
  induction q with
  | nil => rfl
  | cons a as ih =>
    by_cases hpa : p a = true
    · simp [updateFirstBy, hpa, List.countP_cons, hf]
    · simp [updateFirstBy, hpa, List.countP_cons, ih]

theorem backfillExisting_eq (f : VFile) (i : MediaItem) :
    backfillExisting f i =
      { i with
        duration := if i.duration = 0 then f.probedDuration else i.duration
        size := if sizeFalsy i.size = true then some f.size else i.size } := by
  unfold backfillExisting
  by_cases hd : i.duration = 0 <;> by_cases hs : sizeFalsy i.size = true <;>
    simp [hd, hs]

/-- C2: discovery is idempotent — `handleFileChange` on an already-tracked
path never creates a second MediaItem for that path; it only backfills the
item's `duration`/`size` when they were previously absent (falsy) and
changes nothing else about the item or the queue; the path stays tracked, so
the same holds on a second run. -/
theorem claim_C2 (freshId : String) (folderPath : String)
    (q : List MediaItem) (f : VFile)
    (hfolder : folderPath ≠ "")
    (hhid : (strStartsWith f.name "." || strContains f.path "/.") = false)
    (hin : strStartsWith f.path (folderPath ++ "/") = true)
    (hext : validExtensions.contains (strToLower f.extension) = true)
    (htracked : ∃ i ∈ q, i.path = f.path) :
    (handleFileChange freshId folderPath q f).length = q.length ∧
    (handleFileChange freshId folderPath q f).countP
        (fun i => decide (i.path = f.path)) =
      q.countP (fun i => decide (i.path = f.path)) ∧
    (∃ i ∈ handleFileChange freshId folderPath q f, i.path = f.path) ∧
    (∀ (k : Nat) (hk : k < q.length)
      (hk2 : k < (handleFileChange freshId folderPath q f).length),
      (handleFileChange freshId folderPath q f).get ⟨k, hk2⟩ = q[k] ∨
      (q[k].path = f.path ∧
        (handleFileChange freshId folderPath q f).get ⟨k, hk2⟩ =
          { q[k] with
            duration := if q[k].duration = 0 then f.probedDuration
                        else q[k].duration
            size := if sizeFalsy q[k].size = true then some f.size
                    else q[k].size })) := by
  have hfind : (q.find? (fun i => decide (i.path = f.path))).isSome := by
    rw [List.find?_isSome]
    rcases htracked with ⟨i, hi, hip⟩
    exact ⟨i, hi, by simp [hip]⟩
  have hform : handleFileChange freshId folderPath q f =
      updateFirstBy (fun i => decide (i.path = f.path)) (backfillExisting f) q := by
    unfold handleFileChange
    rw [if_neg hfolder, if_neg (by simp [hhid]),
      if_neg (not_not_intro hin), if_neg (not_not_intro hext)]
    cases hfq : q.find? (fun i => decide (i.path = f.path)) with
    | none => rw [hfq] at hfind; simp at hfind
    | some x => rfl
  refine ⟨?_, ?_, ?_, ?_⟩
  · rw [hform, updateFirstBy_length]
  · rw [hform]
    apply updateFirstBy_countP
    intro x
    rw [backfillExisting_eq]
  · rcases htracked with ⟨i, hi, hip⟩
    rcases updateFirstBy_sel (fun i => decide (i.path = f.path))
      (backfillExisting f) q ⟨i, hi, by simp [hip]⟩ with ⟨x, hx, hpx, hmem⟩
    refine ⟨backfillExisting f x, by rw [hform]; exact hmem, ?_⟩
    rw [backfillExisting_eq]
    simpa using hpx
  · intro k hk hk2
    revert hk2
    rw [hform]
    intro hk2
    rcases updateFirstBy_getElem (fun i => decide (i.path = f.path))
      (backfillExisting f) q k hk hk2 with h | ⟨hp, h⟩
    · left; rw [h]
    · right
      refine ⟨by simpa using hp, ?_⟩
      rw [h, backfillExisting_eq]

/-- Sample tracked item with falsy duration and size. -/
def itemT : MediaItem :=
  ⟨"t", "Watched/t.mp4", "t.mp4", .pending, false, 0, 0, none⟩

/-- Sample file at `itemT`'s path. -/
def fileT : VFile :=
  ⟨"Watched/t.mp4", "t.mp4", "mp4", 7, 33⟩

/-- Witness for C2 at a concrete tracked file: no duplicate entry is
created on re-discovery. -/
theorem claim_C2_witness :
    (handleFileChange "fresh" "Watched" [itemT] fileT).length = 1 ∧
    (handleFileChange "fresh" "Watched" [itemT] fileT).countP
        (fun i => decide (i.path = fileT.path)) =
      [itemT].countP (fun i => decide (i.path = fileT.path)) := by
  have h := claim_C2 "fresh" "Watched" [itemT] fileT (by decide) (by decide)
    (by decide) (by decide) ⟨itemT, by decide, by decide⟩
  exact ⟨h.1, h.2.1⟩

/-- `reorderItem(oldIndex, newIndex)` (`main.ts:806-812`): a no-op when
either index is out of bounds; otherwise splice the item out at `oldIndex`
and back in at `newIndex`. -/
def reorderItem (q : List MediaItem) (oldIndex newIndex : Int) :
    List MediaItem :=
  if h : oldIndex < 0 ∨ (q.length : Int) ≤ oldIndex ∨ newIndex < 0 ∨
      (q.length : Int) ≤ newIndex then q
  else
    (q.eraseIdx oldIndex.toNat).insertIdx newIndex.toNat
      (q.get ⟨oldIndex.toNat, by omega⟩)

theorem reorderItem_in_bounds (q : List MediaItem) (o n : Nat)
    (ho : o < q.length) (hn : n < q.length) :
    reorderItem q (o : Int) (n : Int) =
      (q.eraseIdx o).insertIdx n (q.get ⟨o, ho⟩) := by
  unfold reorderItem
  rw [dif_neg (by omega)]
  simp

/-- C9: `reorderItem(oldIndex, newIndex)` leaves the queue unchanged (a
no-op, not an error) if either index is out of bounds, and otherwise moves
the element at `oldIndex` to position `newIndex`, leaving the rest in
relative order; `reorderItem(5, 2)` on a 3-item queue is a no-op and
`reorderItem(0, 2)` on `[itemA, itemB, itemC]` gives
`[itemB, itemC, itemA]`. -/
theorem claim_C9 :
    (∀ (q : List MediaItem) (oldIndex newIndex : Int),
      (oldIndex < 0 ∨ (q.length : Int) ≤ oldIndex ∨ newIndex < 0 ∨
        (q.length : Int) ≤ newIndex) →
      reorderItem q oldIndex newIndex = q) ∧
    (∀ (q : List MediaItem) (o n : Nat) (ho : o < q.length)
      (_hn : n < q.length),
      (reorderItem q (o : Int) (n : Int)).length = q.length ∧
      (reorderItem q (o : Int) (n : Int))[n]? = some (q.get ⟨o, ho⟩) ∧
      (reorderItem q (o : Int) (n : Int)).eraseIdx n = q.eraseIdx o) ∧
    reorderItem [itemA, itemB, itemC] 5 2 = [itemA, itemB, itemC] ∧
    reorderItem [itemA, itemB, itemC] 0 2 = [itemB, itemC, itemA] := by
  refine ⟨?_, ?_, by decide, by decide⟩
  · intro q oldIndex newIndex h
    unfold reorderItem
    rw [dif_pos h]
  · intro q o n ho hn
    rw [reorderItem_in_bounds q o n ho hn]
    have hne : (q.eraseIdx o).length = q.length - 1 := by
      rw [List.length_eraseIdx]
      simp [ho]
    have hnle : n ≤ (q.eraseIdx o).length := by omega
    refine ⟨?_, ?_, ?_⟩
    · rw [List.length_insertIdx _ _ hnle, hne]
      omega
    · have hlen : n < ((q.eraseIdx o).insertIdx n (q.get ⟨o, ho⟩)).length := by
        rw [List.length_insertIdx _ _ hnle]
        omega
      rw [List.getElem?_eq_getElem hlen]
      congr 1
      exact List.getElem_insertIdx_self _ _ _ hnle
    · exact List.eraseIdx_insertIdx n (q.eraseIdx o)

/-- Witness for C9 at the concrete 3-item queue. -/
theorem claim_C9_witness :
    reorderItem [itemA, itemB, itemC] 5 2 = [itemA, itemB, itemC] ∧
    (reorderItem [itemA, itemB, itemC] 0 2).eraseIdx 2 =
      [itemA, itemB, itemC].eraseIdx 0 := by
  have h := claim_C9
  exact ⟨h.2.2.1,
    (h.2.1 [itemA, itemB, itemC] 0 2 (by decide) (by decide)).2.2⟩

/-- Sort keys of `sortQueue` (`'name' | 'type' | 'size'`). -/
inductive SortBy
  | name
  | type
  | size
deriving DecidableEq, Repr

/-- Sort directions of `sortQueue` (`'asc' | 'desc'`). -/
inductive SortOrder
  | asc
  | desc
deriving DecidableEq, Repr

/-- JavaScript `s.split(c)` with a one-character separator. -/
def splitOnChar (c : Char) : List Char → List (List Char)
  | [] => [[]]
  | x :: xs =>
    if x = c then [] :: splitOnChar c xs
    else
      match splitOnChar c xs with
      | [] => [[x]]
      | g :: gs => (x :: g) :: gs

/-- The `'type'` sort key (`main.ts:820`):
`path.split('.').pop()?.toLowerCase() || ''`. -/
def typeKey (p : String) : String :=
  strToLower ⟨(splitOnChar '.' p.data).getLastD []⟩

/-- The comparison the source comparator performs on the two extracted key
values (`main.ts:831-833`): `-1`/`1` per order for `<`, the opposite for
`>`, `0` otherwise. -/
def cmpVals {α : Type} [LinearOrder α] (ord : SortOrder) (valA valB : α) :
    Int :=
  if valA < valB then (if ord = .asc then -1 else 1)
  else if valB < valA then (if ord = .asc then 1 else -1)
  else 0

/-- The comparator passed to `Array.prototype.sort` in `sortQueue`
(`main.ts:815-834`); Lean's `String` order is the JavaScript string order
(lexicographic by code point) for the strings involved. -/
def itemCompare (b : SortBy) (ord : SortOrder) (x y : MediaItem) : Int :=
  match b with
  | .type => cmpVals ord (typeKey x.path) (typeKey y.path)
  | .size => cmpVals ord (x.size.getD 0) (y.size.getD 0)
  | .name => cmpVals ord (strToLower x.name) (strToLower y.name)

/-- `sortQueue(by, order)` (`main.ts:814-836`): `Array.prototype.sort` is a
stable sort (ES2019), and a stable sort agreeing with a consistent
comparator is extensionally unique; it is realised here by the stable
insertion sort on the source's comparator. -/
def sortQueue (b : SortBy) (ord : SortOrder) (q : List MediaItem) :
    List MediaItem :=
  q.insertionSort (fun x y => itemCompare b ord x y ≤ 0)

theorem cmpVals_le_asc {α : Type} [LinearOrder α] (u v : α) :
    cmpVals .asc u v ≤ 0 ↔ u ≤ v := by
  unfold cmpVals
  rcases lt_trichotomy u v with h | h | h
  · rw [if_pos h]
    simp [le_of_lt h]
  · subst h
    simp [lt_irrefl]
  · rw [if_neg (not_lt_of_gt h), if_pos h]
    simp [not_le_of_gt h]

theorem cmpVals_le_desc {α : Type} [LinearOrder α] (u v : α) :
    cmpVals .desc u v ≤ 0 ↔ v ≤ u := by
  unfold cmpVals
  rcases lt_trichotomy u v with h | h | h
  · rw [if_pos h]
    simp [not_le_of_gt h]
  · subst h
    simp [lt_irrefl]
  · rw [if_neg (not_lt_of_gt h), if_pos h]
    simp [le_of_lt h]

theorem cmpVals_total {α : Type} [LinearOrder α] (ord : SortOrder)
    (u v : α) : cmpVals ord u v ≤ 0 ∨ cmpVals ord v u ≤ 0 := by
  cases ord
  · rw [cmpVals_le_asc, cmpVals_le_asc]
    exact le_total u v
  · rw [cmpVals_le_desc, cmpVals_le_desc]
    exact le_total v u

theorem cmpVals_trans {α : Type} [LinearOrder α] (ord : SortOrder)
    (u v w : α) (h1 : cmpVals ord u v ≤ 0) (h2 : cmpVals ord v w ≤ 0) :
    cmpVals ord u w ≤ 0 := by
  cases ord
  · rw [cmpVals_le_asc] at h1 h2 ⊢
    exact le_trans h1 h2
  · rw [cmpVals_le_desc] at h1 h2 ⊢
    exact le_trans h2 h1

theorem cmpVals_of_eq {α : Type} [LinearOrder α] (ord : SortOrder)
    {u v : α} (h : u = v) : cmpVals ord u v ≤ 0 := by
  subst h
  simp [cmpVals, lt_irrefl]

theorem orderedInsert_filter_pos {α : Type} (r : α → α → Prop)
    [DecidableRel r] (p : α → Bool) (a : α) (hpa : p a = true)
    (hall : ∀ b, p b = true → r a b) :
    ∀ (l : List α), (l.orderedInsert r a).filter p = a :: l.filter p := by
  intro l
  induction l with
  | nil => simp [hpa]
  | cons y l ih =>
    by_cases hray : r a y
    · simp [List.orderedInsert, hray, hpa]
    · have hpy : p y = false := by
        cases hpy : p y
        · rfl
        · exact absurd (hall y hpy) hray
      simp [List.orderedInsert, hray, hpy, ih]

theorem orderedInsert_filter_neg {α : Type} (r : α → α → Prop)
    [DecidableRel r] (p : α → Bool) (a : α) (hpa : p a = false) :
    ∀ (l : List α), (l.orderedInsert r a).filter p = l.filter p := by
  intro l
  induction l with
  | nil => simp [hpa]
  | cons y l ih =>
    by_cases hray : r a y
    · simp [List.orderedInsert, hray, hpa]
    · cases hpy : p y
      · simp [List.orderedInsert, hray, hpy, ih]
      · simp [List.orderedInsert, hray, hpy, ih]

theorem insertionSort_filter_stable {α : Type} (r : α → α → Prop)
    [DecidableRel r] (p : α → Bool)
    (hcl : ∀ a b, p a = true → p b = true → r a b) :
    ∀ (l : List α), (l.insertionSort r).filter p = l.filter p := by
  intro l
  induction l with
  | nil => rfl
  | cons a l ih =>
    show ((l.insertionSort r).orderedInsert r a).filter p = _
    cases hpa : p a
    · rw [orderedInsert_filter_neg r p a hpa, ih]
      simp [List.filter_cons, hpa]
    · rw [orderedInsert_filter_pos r p a hpa (fun b hb => hcl a b hpa hb), ih]
      simp [List.filter_cons, hpa]

theorem orderedInsert_map_comm {α : Type} (r : α → α → Prop)
    [DecidableRel r] (g : α → α)
    (hg : ∀ a b, r (g a) (g b) ↔ r a b) (a : α) :
    ∀ (l : List α),
      (l.orderedInsert r a).map g = (l.map g).orderedInsert r (g a) := by
  intro l
  induction l with
  | nil => rfl
  | cons y l ih =>
    by_cases hray : r a y
    · simp [List.orderedInsert, hray, (hg a y).mpr hray]
    · have : ¬ r (g a) (g y) := fun h => hray ((hg a y).mp h)
      simp [List.orderedInsert, hray, this, ih]

theorem insertionSort_map_comm {α : Type} (r : α → α → Prop)
    [DecidableRel r] (g : α → α)
    (hg : ∀ a b, r (g a) (g b) ↔ r a b) :
    ∀ (l : List α),
      (l.insertionSort r).map g = (l.map g).insertionSort r := by
  intro l
  induction l with
  | nil => rfl
  | cons a l ih =>
    show ((l.insertionSort r).orderedInsert r a).map g = _
    rw [orderedInsert_map_comm r g hg a, ih]
    rfl

theorem splitOnChar_ne_nil (c : Char) :
    ∀ (l : List Char), splitOnChar c l ≠ [] := by
  intro l
  induction l with
  | nil => simp [splitOnChar]
  | cons x xs ih =>
    unfold splitOnChar
    by_cases hx : x = c
    · simp [hx]
    · rw [if_neg hx]
      cases h : splitOnChar c xs with
      | nil => simp
      | cons g gs => simp

theorem splitOnChar_two_le (c : Char) :
    ∀ (l : List Char), c ∈ l → 2 ≤ (splitOnChar c l).length := by
  intro l
  induction l with
  | nil => intro h; exact absurd h (List.not_mem_nil c)
  | cons x xs ih =>
    intro hmem
    unfold splitOnChar
    by_cases hx : x = c
    · rw [if_pos hx]
      have h1 : 1 ≤ (splitOnChar c xs).length :=
        List.length_pos.mpr (splitOnChar_ne_nil c xs)
      simp only [List.length_cons]
      omega
    · rw [if_neg hx]
      have hxs : c ∈ xs := by
        rcases List.mem_cons.mp hmem with h | h
        · exact absurd h.symm hx
        · exact h
      have h2 := ih hxs
      cases h : splitOnChar c xs with
      | nil => exact absurd h (splitOnChar_ne_nil c xs)
      | cons g gs =>
        rw [h] at h2
        simp only [List.length_cons] at h2 ⊢
        omega

theorem splitOnChar_not_mem (c : Char) :
    ∀ (l : List Char), c ∉ l → splitOnChar c l = [l] := by
  intro l
  induction l with
  | nil => intro _; rfl
  | cons x xs ih =>
    intro hmem
    have hx : ¬ x = c := fun h => hmem (h ▸ List.mem_cons_self x xs)
    have hxs : c ∉ xs := fun h => hmem (List.mem_cons_of_mem x h)
    unfold splitOnChar
    rw [if_neg hx, ih hxs]

theorem splitOnChar_cons (c x : Char) (xs : List Char) :
    splitOnChar c (x :: xs) =
      if x = c then [] :: splitOnChar c xs
      else
        match splitOnChar c xs with
        | [] => [[x]]
        | g :: gs => (x :: g) :: gs := rfl

theorem splitOnChar_sep (c : Char) :
    ∀ (l1 l2 : List Char),
      (splitOnChar c (l1 ++ c :: l2)).getLastD [] =
        (splitOnChar c l2).getLastD [] := by
  intro l1
  induction l1 with
  | nil =>
    intro l2
    rw [List.nil_append, splitOnChar_cons, if_pos rfl]
    cases h : splitOnChar c l2 with
    | nil => exact absurd h (splitOnChar_ne_nil c l2)
    | cons g gs => rfl
  | cons x l1 ih =>
    intro l2
    rw [List.cons_append, splitOnChar_cons]
    by_cases hx : x = c
    · rw [if_pos hx]
      cases h : splitOnChar c (l1 ++ c :: l2) with
      | nil => exact absurd h (splitOnChar_ne_nil c _)
      | cons g gs =>
        have h2 := ih l2
        rw [h] at h2
        exact h2
    · rw [if_neg hx]
      cases h : splitOnChar c (l1 ++ c :: l2) with
      | nil => exact absurd h (splitOnChar_ne_nil c _)
      | cons g gs =>
        cases gs with
        | nil =>
          have h2 := splitOnChar_two_le c (l1 ++ c :: l2) (by simp)
          rw [h] at h2
          simp at h2
        | cons g2 gs2 =>
          have h2 := ih l2
          rw [h] at h2
          show ((x :: g) :: g2 :: gs2).getLastD [] = _
          exact h2

theorem typeKey_extension (base ext : String) (h : ('.' : Char) ∉ ext.data) :
    typeKey (base ++ "." ++ ext) = strToLower ext := by
  unfold typeKey
  have hdata : (base ++ "." ++ ext).data = base.data ++ '.' :: ext.data := by
    rw [String.data_append, String.data_append]
    simp
  rw [hdata, splitOnChar_sep, splitOnChar_not_mem ('.' : Char) ext.data h]
  rfl

/-- Sample item with size 10 bytes. -/
def sizeX : MediaItem := ⟨"x", "W/x.mp4", "x.mp4", .pending, false, 0, 0, some 10⟩

/-- Sample item with unknown size. -/
def sizeY : MediaItem := ⟨"y", "W/y.mp4", "y.mp4", .pending, false, 0, 0, none⟩

/-- Sample item with size 5 bytes. -/
def sizeZ : MediaItem := ⟨"z", "W/z.mp4", "z.mp4", .pending, false, 0, 0, some 5⟩

theorem itemCompare_total (b : SortBy) (ord : SortOrder) (x y : MediaItem) :
    itemCompare b ord x y ≤ 0 ∨ itemCompare b ord y x ≤ 0 := by
  cases b
  · exact cmpVals_total ord _ _
  · exact cmpVals_total ord _ _
  · exact cmpVals_total ord _ _

theorem itemCompare_trans (b : SortBy) (ord : SortOrder) (x y z : MediaItem)
    (h1 : itemCompare b ord x y ≤ 0) (h2 : itemCompare b ord y z ≤ 0) :
    itemCompare b ord x z ≤ 0 := by
  cases b
  · exact cmpVals_trans ord _ _ _ h1 h2
  · exact cmpVals_trans ord _ _ _ h1 h2
  · exact cmpVals_trans ord _ _ _ h1 h2

/-- C8: `sortQueue(key, order)` permutes the queue into comparator order and
is stable for equal keys (for each of the three keys); name comparisons are
case-insensitive (both names lowercased, so lowercasing-preserving renamings
commute with the sort); the type-sort key of a path `base.ext` (dot-free
`ext`) is the lowercased final extension; the size key falls back to 0 for
an absent size (filling absent sizes with 0 commutes with the sort); and
`sortQueue('size','desc')` on sizes `[10, none, 5]` gives `[10, 5, none]`. -/
theorem claim_C8 :
    (∀ (b : SortBy) (ord : SortOrder) (q : List MediaItem),
      List.Perm (sortQueue b ord q) q ∧
      (sortQueue b ord q).Sorted (fun x y => itemCompare b ord x y ≤ 0)) ∧
    (∀ (ord : SortOrder) (q : List MediaItem) (s : String),
      (sortQueue .name ord q).filter
          (fun i => decide (strToLower i.name = s)) =
        q.filter (fun i => decide (strToLower i.name = s))) ∧
    (∀ (ord : SortOrder) (q : List MediaItem) (s : String),
      (sortQueue .type ord q).filter
          (fun i => decide (typeKey i.path = s)) =
        q.filter (fun i => decide (typeKey i.path = s))) ∧
    (∀ (ord : SortOrder) (q : List MediaItem) (n : Nat),
      (sortQueue .size ord q).filter
          (fun i => decide (i.size.getD 0 = n)) =
        q.filter (fun i => decide (i.size.getD 0 = n))) ∧
    (∀ (ord : SortOrder) (q : List MediaItem) (g : String → String),
      (∀ s, strToLower (g s) = strToLower s) →
      sortQueue .name ord (q.map (fun i => { i with name := g i.name })) =
        (sortQueue .name ord q).map (fun i => { i with name := g i.name })) ∧
    (∀ (ord : SortOrder) (q : List MediaItem),
      sortQueue .size ord
          (q.map (fun i => { i with size := some (i.size.getD 0) })) =
        (sortQueue .size ord q).map
          (fun i => { i with size := some (i.size.getD 0) })) ∧
    (∀ (base ext : String), ('.' : Char) ∉ ext.data →
      typeKey (base ++ "." ++ ext) = strToLower ext) ∧
    sortQueue .size .desc [sizeX, sizeY, sizeZ] = [sizeX, sizeZ, sizeY] := by
  refine ⟨?_, ?_, ?_, ?_, ?_, ?_, typeKey_extension, by decide⟩
  · intro b ord q
    constructor
    · exact List.perm_insertionSort _ q
    · haveI : IsTotal MediaItem (fun x y => itemCompare b ord x y ≤ 0) :=
        ⟨fun x y => itemCompare_total b ord x y⟩
      haveI : IsTrans MediaItem (fun x y => itemCompare b ord x y ≤ 0) :=
        ⟨fun x y z => itemCompare_trans b ord x y z⟩
      exact List.sorted_insertionSort _ q
  · intro ord q s
    apply insertionSort_filter_stable
    intro a c ha hc
    have ha2 : strToLower a.name = s := of_decide_eq_true ha
    have hc2 : strToLower c.name = s := of_decide_eq_true hc
    exact cmpVals_of_eq ord (ha2.trans hc2.symm)
  · intro ord q s
    apply insertionSort_filter_stable
    intro a c ha hc
    have ha2 : typeKey a.path = s := of_decide_eq_true ha
    have hc2 : typeKey c.path = s := of_decide_eq_true hc
    exact cmpVals_of_eq ord (ha2.trans hc2.symm)
  · intro ord q n
    apply insertionSort_filter_stable
    intro a c ha hc
    have ha2 : a.size.getD 0 = n := of_decide_eq_true ha
    have hc2 : c.size.getD 0 = n := of_decide_eq_true hc
    exact cmpVals_of_eq ord (ha2.trans hc2.symm)
  · intro ord q g hg
    symm
    apply insertionSort_map_comm
    intro a c
    show cmpVals ord (strToLower (g a.name)) (strToLower (g c.name)) ≤ 0 ↔
      cmpVals ord (strToLower a.name) (strToLower c.name) ≤ 0
    rw [hg a.name, hg c.name]
  · intro ord q
    symm
    apply insertionSort_map_comm
    intro a c
    show cmpVals ord ((some (a.size.getD 0)).getD 0)
        ((some (c.size.getD 0)).getD 0) ≤ 0 ↔
      cmpVals ord (a.size.getD 0) (c.size.getD 0) ≤ 0
    rfl

/-- Witness for C8: concrete instantiations of the hypotheses-bearing parts
(case-insensitivity applied with the identity renaming, and the extension
key at a dot-free extension). -/
theorem claim_C8_witness :
    sortQueue .name .asc
        ([sizeX, sizeY].map (fun i => { i with name := i.name })) =
      (sortQueue .name .asc [sizeX, sizeY]).map
        (fun i => { i with name := i.name }) ∧
    typeKey ("clip" ++ "." ++ "MP4") = strToLower "MP4" := by
  constructor
  · exact claim_C8.2.2.2.2.1 .asc [sizeX, sizeY] (fun s => s) (fun s => rfl)
  · exact claim_C8.2.2.2.2.2.2.1 "clip" "MP4" (by decide)

/-- Drop the first `n` characters of a string. -/
def strDrop (s : String) (n : Nat) : String :=
  ⟨s.data.drop n⟩

/-- The rename match predicate (`main.ts:546`): the item's path equals the
old path or lies strictly under it. -/
def renameMatches (oldPath : String) (i : MediaItem) : Bool :=
  decide (i.path = oldPath) || strStartsWith i.path (oldPath ++ "/")

/-- Inside-the-watched-root test of the rename cleanup filter
(`main.ts:574-577`): keep an item iff its path starts with
`watched ++ "/"` or equals `watched`. -/
def insideWatched (watched p : String) : Bool :=
  strStartsWith p (watched ++ "/") || decide (p = watched)

/-- The per-item rewrite of `handleRename` (`main.ts:549-568`): replace the
first occurrence of `oldPath` in the item's path by the renamed file's new
path; an item that thereby leaves the watched root additionally gets
`status := 'completed'` (it is then removed by the cleanup filter). -/
def renameRewrite (watched oldPath newFilePath : String) (i : MediaItem) :
    MediaItem :=
  let np := jsReplace i.path oldPath newFilePath
  if watched ≠ "" ∧ ¬ (strStartsWith np (watched ++ "/") = true) ∧
      np ≠ watched
  then { i with path := np, status := .completed }
  else { i with path := np }

/-- Queue fix-up of `handleRename(file, oldPath)` (`main.ts:535-581`): when
at least one tracked item matches the old path, matching items are
rewritten, and then — when a watched root is configured — the whole queue is
filtered down to items inside the watched root.  (The trailing re-discovery
`handleFileChange(file)` at `main.ts:586` is `handleFileChange` above.) -/
def handleRename (watched oldPath newFilePath : String)
    (q : List MediaItem) : List MediaItem :=
  if (q.filter (renameMatches oldPath)).length > 0 then
    if watched ≠ "" then
      (q.map (fun i => if renameMatches oldPath i
          then renameRewrite watched oldPath newFilePath i else i)).filter
        (fun i => insideWatched watched i.path)
    else
      q.map (fun i => if renameMatches oldPath i
          then renameRewrite watched oldPath newFilePath i else i)
  else q

theorem jsReplaceData_startsWith (s pat rep : List Char)
    (h : pat.isPrefixOf s = true) :
    jsReplaceData s pat rep = rep ++ s.drop pat.length := by
  cases s with
  | nil =>
    have hpat : pat = [] := by
      cases pat with
      | nil => rfl
      | cons a as => simp [List.isPrefixOf] at h
    subst hpat
    simp [jsReplaceData]
  | cons c cs =>
    unfold jsReplaceData
    rw [if_pos h]

theorem renameMatches_isPrefixOf (oldPath : String) (i : MediaItem)
    (h : renameMatches oldPath i = true) :
    oldPath.data.isPrefixOf i.path.data = true := by
  rw [List.isPrefixOf_iff_prefix]
  unfold renameMatches at h
  rcases Bool.or_eq_true_iff.mp h with h1 | h2
  · rw [of_decide_eq_true h1]
  · unfold strStartsWith at h2
    rw [List.isPrefixOf_iff_prefix] at h2
    refine List.IsPrefix.trans ?_ h2
    rw [String.data_append]
    exact ⟨("/" : String).data, rfl⟩

theorem handleRename_eq (watched oldPath newFilePath : String)
    (q : List MediaItem) (hw : watched ≠ "")
    (hmatch : ∃ i ∈ q, renameMatches oldPath i = true) :
    handleRename watched oldPath newFilePath q =
      (q.map (fun i => if renameMatches oldPath i
          then renameRewrite watched oldPath newFilePath i else i)).filter
        (fun i => insideWatched watched i.path) := by
  unfold handleRename
  rcases hmatch with ⟨i, hi, hpi⟩
  rw [if_pos, if_pos hw]
  exact List.length_pos.mpr
    (List.ne_nil_of_mem (List.mem_filter.mpr ⟨hi, hpi⟩))

/-- Sample tracked item under the folder `A/Old`. -/
def itemClip : MediaItem :=
  ⟨"clip", "A/Old/clip.mp4", "clip.mp4", .pending, false, 0, 0, none⟩

/-- C3: on a rename of `oldPath` to `newFilePath`, every tracked item whose
path equals `oldPath` or starts with `oldPath ++ "/"` has its path prefix
rewritten to `newFilePath` preserving the remainder; after rewriting, an
item inside the watched root is kept with exactly the rewritten path, and an
item outside the watched root is dropped from the queue; concretely,
renaming folder `A/Old` to `A/New` rewrites `A/Old/clip.mp4` to
`A/New/clip.mp4`, and with watched root `A/Watched` the item is removed. -/
theorem claim_C3 (watched oldPath newFilePath : String) (q : List MediaItem)
    (hw : watched ≠ "") (hnodup : (q.map MediaItem.id).Nodup) :
    (∀ i ∈ q, renameMatches oldPath i = true →
      (jsReplace i.path oldPath newFilePath).data =
        newFilePath.data ++ i.path.data.drop oldPath.data.length) ∧
    (∀ i ∈ q, renameMatches oldPath i = true →
      insideWatched watched (jsReplace i.path oldPath newFilePath) = true →
      { i with path := jsReplace i.path oldPath newFilePath } ∈
        handleRename watched oldPath newFilePath q) ∧
    (∀ i ∈ q, renameMatches oldPath i = true →
      insideWatched watched (jsReplace i.path oldPath newFilePath) = false →
      ∀ j ∈ handleRename watched oldPath newFilePath q, j.id ≠ i.id) ∧
    jsReplace "A/Old/clip.mp4" "A/Old" "A/New" = "A/New/clip.mp4" ∧
    handleRename "A/Watched" "A/Old" "A/New" [itemClip] = [] := by
  refine ⟨?_, ?_, ?_, by decide, by decide⟩
  · intro i hi hm
    unfold jsReplace
    rw [jsReplaceData_startsWith _ _ _ (renameMatches_isPrefixOf oldPath i hm)]
  · intro i hi hm hin
    rw [handleRename_eq watched oldPath newFilePath q hw ⟨i, hi, hm⟩]
    apply List.mem_filter.mpr
    constructor
    · refine List.mem_map.mpr ⟨i, hi, ?_⟩
      rw [if_pos hm]
      unfold renameRewrite
      rw [if_neg]
      intro hcond
      rcases hcond with ⟨-, hns, hne⟩
      unfold insideWatched at hin
      rcases Bool.or_eq_true_iff.mp hin with h1 | h2
      · exact hns h1
      · exact hne (of_decide_eq_true h2)
    · exact hin
  · intro i hi hm hout j hj hij
    rw [handleRename_eq watched oldPath newFilePath q hw ⟨i, hi, hm⟩] at hj
    rcases List.mem_filter.mp hj with ⟨hjm, hjk⟩
    rcases List.mem_map.mp hjm with ⟨x, hx, hxj⟩
    have hxid : x.id = i.id := by
      have : j.id = x.id := by
        rw [← hxj]
        by_cases hmx : renameMatches oldPath x = true
        · rw [if_pos hmx]
          unfold renameRewrite
          by_cases hc : watched ≠ "" ∧
              ¬ (strStartsWith (jsReplace x.path oldPath newFilePath)
                  (watched ++ "/") = true) ∧
              jsReplace x.path oldPath newFilePath ≠ watched
          · rw [if_pos hc]
          · rw [if_neg hc]
        · rw [if_neg hmx]
      rw [← this, hij]
    have hxi : x = i :=
      List.inj_on_of_nodup_map hnodup hx hi hxid
    subst hxi
    rw [if_pos hm] at hxj
    have hjp : j.path = jsReplace x.path oldPath newFilePath := by
      rw [← hxj]
      unfold renameRewrite
      by_cases hc : watched ≠ "" ∧
          ¬ (strStartsWith (jsReplace x.path oldPath newFilePath)
              (watched ++ "/") = true) ∧
          jsReplace x.path oldPath newFilePath ≠ watched
      · rw [if_pos hc]
      · rw [if_neg hc]
    rw [hjp] at hjk
    rw [hout] at hjk
    exact Bool.false_ne_true hjk

theorem renameRewrite_id (watched oldPath newFilePath : String)
    (i : MediaItem) :
    (renameRewrite watched oldPath newFilePath i).id = i.id := by
  simp only [renameRewrite]
  split
  · rfl
  · rfl

/-- Sample item outside the watched root `A`, untouched by the rename. -/
def itemOut : MediaItem :=
  ⟨"out", "B/out.mp4", "out.mp4", .pending, false, 0, 0, none⟩

/-- Sample item inside the watched root `A`, untouched by the rename. -/
def itemIn : MediaItem :=
  ⟨"in", "A/in.mp4", "in.mp4", .pending, false, 0, 0, none⟩

/-- C10: whenever a rename matches at least one tracked item, the cleanup
filter afterwards runs over the entire queue, not only the renamed items:
every surviving item lies inside the watched root; every item outside the
watched root — including items untouched by this rename — is removed; and
untouched items inside the root survive unchanged. -/
theorem claim_C10 (watched oldPath newFilePath : String)
    (q : List MediaItem) (hw : watched ≠ "")
    (hnodup : (q.map MediaItem.id).Nodup)
    (hmatch : ∃ i ∈ q, renameMatches oldPath i = true) :
    (∀ j ∈ handleRename watched oldPath newFilePath q,
      insideWatched watched j.path = true) ∧
    (∀ i ∈ q, renameMatches oldPath i = false →
      insideWatched watched i.path = false →
      ∀ j ∈ handleRename watched oldPath newFilePath q, j.id ≠ i.id) ∧
    (∀ i ∈ q, renameMatches oldPath i = false →
      insideWatched watched i.path = true →
      i ∈ handleRename watched oldPath newFilePath q) := by
  rw [handleRename_eq watched oldPath newFilePath q hw hmatch]
  refine ⟨?_, ?_, ?_⟩
  · intro j hj
    exact (List.mem_filter.mp hj).2
  · intro i hi hm hout j hj hij
    rcases List.mem_filter.mp hj with ⟨hjm, hjk⟩
    rcases List.mem_map.mp hjm with ⟨x, hx, hxj⟩
    have hjid : j.id = x.id := by
      rw [← hxj]
      by_cases hmx : renameMatches oldPath x = true
      · rw [if_pos hmx]
        exact renameRewrite_id watched oldPath newFilePath x
      · rw [if_neg hmx]
    have hxi : x = i :=
      List.inj_on_of_nodup_map hnodup hx hi (by rw [← hjid, hij])
    subst hxi
    rw [if_neg (by simp [hm])] at hxj
    rw [← hxj] at hjk
    rw [hout] at hjk
    exact Bool.false_ne_true hjk
  · intro i hi hm hin
    apply List.mem_filter.mpr
    refine ⟨List.mem_map.mpr ⟨i, hi, ?_⟩, hin⟩
    rw [if_neg (by simp [hm])]

/-- Witness for C3: renaming `A/Old` to `A/New` with watched root `A`
rewrites `itemClip` to path `A/New/clip.mp4` and keeps it. -/
theorem claim_C3_witness :
    { itemClip with path := jsReplace itemClip.path "A/Old" "A/New" } ∈
      handleRename "A" "A/Old" "A/New" [itemClip] :=
  (claim_C3 "A" "A/Old" "A/New" [itemClip] (by decide) (by decide)).2.1
    itemClip (by decide) (by decide) (by decide)

/-- Witness for C10: on the concrete queue, the untouched inside item
survives the rename cleanup unchanged. -/
theorem claim_C10_witness :
    itemIn ∈ handleRename "A" "A/Old" "A/New" [itemClip, itemOut, itemIn] :=
  (claim_C10 "A" "A/Old" "A/New" [itemClip, itemOut, itemIn] (by decide)
    (by decide) ⟨itemClip, by decide, by decide⟩).2.2
    itemIn (by decide) (by decide) (by decide)

/-- Download job status
(`'downloading' | 'paused' | 'converting' | 'completed' | 'error'`). -/
inductive DStatus
  | downloading
  | paused
  | converting
  | completed
  | error
deriving DecidableEq, Repr

/-- One active download (`interface DownloadStatus` / `ActiveDownload`);
the attached child process handle is modelled by a presence flag. -/
structure DJob where
  id : String
  name : String
  progress : String
  speed : String
  eta : String
  status : DStatus
  error : Option String
  hasProcess : Bool
deriving DecidableEq, Repr

/-- `downloadFolder || watchedFolder` (`main.ts:1125`). -/
def targetFolder (downloadFolder watchedFolder : String) : String :=
  if downloadFolder ≠ "" then downloadFolder else watchedFolder

/-- The `close` handler of the download subprocess (`main.ts:1118-1145`):
exit code 0 completes the job with progress `100%` and triggers a
watched-folder rescan exactly when the target folder equals the watched
folder; a non-null nonzero code records an error unless the job is
`'paused'`; the process handle is cleared in all cases (`code = none`
models a signal kill, which JavaScript reports as a `null` exit code).
Returns the updated job and whether a rescan was triggered. -/
def closeHandler (downloadFolder watchedFolder : String) (j : DJob)
    (code : Option Int) : DJob × Bool :=
  if code = some 0 then
    ({ j with status := .completed, progress := "100%", hasProcess := false },
      targetFolder downloadFolder watchedFolder = watchedFolder)
  else if j.status ≠ .paused ∧ code ≠ none then
    ({ j with
        status := .error
        error := some ("Exit code " ++ toString (code.getD 0))
        hasProcess := false }, false)
  else ({ j with hasProcess := false }, false)

/-- Update the first job satisfying `p` by `f`. -/
def updateFirstJob (p : DJob → Bool) (f : DJob → DJob) :
    List DJob → List DJob
  | [] => []
  | x :: xs => if p x then f x :: xs else x :: updateFirstJob p f xs

/-- `pauseDownload(id)` (`main.ts:1168-1175`): if the job exists and has a
live process, its status is set to `'paused'` strictly before the kill is
issued.  Returns the job list as it stands at the moment the kill signal is
sent, and whether a kill was issued. -/
def pauseDownload (jobs : List DJob) (id : String) : List DJob × Bool :=
  match jobs.find? (fun d => decide (d.id = id)) with
  | some dl =>
    if dl.hasProcess then
      (updateFirstJob (fun d => decide (d.id = id))
        (fun d => { d with status := .paused }) jobs, true)
    else (jobs, false)
  | none => (jobs, false)

theorem updateFirstJob_paused_unique (id : String) :
    ∀ (l : List DJob), (l.map DJob.id).Nodup →
    ∀ j2 ∈ updateFirstJob (fun d => decide (d.id = id))
      (fun d => { d with status := DStatus.paused }) l,
      j2.id = id → j2.status = .paused := by
  intro l
  induction l with
  | nil => intro _ j2 hj2; exact absurd hj2 (List.not_mem_nil j2)
  | cons x xs ih =>
    intro hnodup j2 hj2 hid
    by_cases hx : x.id = id
    · rw [show updateFirstJob (fun d => decide (d.id = id))
          (fun d => { d with status := DStatus.paused }) (x :: xs) =
          { x with status := DStatus.paused } :: xs from by
        simp [updateFirstJob, hx]] at hj2
      rcases List.mem_cons.mp hj2 with rfl | hj2xs
      · rfl
      · exfalso
        have hxid : x.id ∈ xs.map DJob.id := by
          rw [hx, ← hid]
          exact List.mem_map.mpr ⟨j2, hj2xs, rfl⟩
        rw [List.map_cons] at hnodup
        exact (List.nodup_cons.mp hnodup).1 hxid
    · rw [show updateFirstJob (fun d => decide (d.id = id))
          (fun d => { d with status := DStatus.paused }) (x :: xs) =
          x :: updateFirstJob (fun d => decide (d.id = id))
            (fun d => { d with status := DStatus.paused }) xs from by
        simp [updateFirstJob, hx]] at hj2
      rcases List.mem_cons.mp hj2 with rfl | hj2xs
      · exact absurd hid hx
      · rw [List.map_cons] at hnodup
        exact ih (List.nodup_cons.mp hnodup).2 j2 hj2xs hid

/-- C4: on subprocess exit, exit code 0 sets the job `'completed'` with
progress `'100%'` and triggers a watched-folder rescan exactly when the
job's target folder (`downloadFolder || watchedFolder`) equals the watched
folder; a nonzero exit code while the job is not `'paused'` sets `'error'`
with the exit code recorded; and after `pauseDownload` — which sets status
`'paused'` strictly before issuing the kill — the exit caused by the kill
(any non-0-code exit) records no error and leaves the job `'paused'`. -/
theorem claim_C4 (downloadFolder watchedFolder : String) (j : DJob)
    (c : Int) (jobs : List DJob) (id : String)
    (hnodup : (jobs.map DJob.id).Nodup) :
    ((closeHandler downloadFolder watchedFolder j (some 0)).1.status =
        .completed ∧
      (closeHandler downloadFolder watchedFolder j (some 0)).1.progress =
        "100%" ∧
      ((closeHandler downloadFolder watchedFolder j (some 0)).2 = true ↔
        targetFolder downloadFolder watchedFolder = watchedFolder)) ∧
    (c ≠ 0 → j.status ≠ .paused →
      (closeHandler downloadFolder watchedFolder j (some c)).1.status =
        .error ∧
      (closeHandler downloadFolder watchedFolder j (some c)).1.error =
        some ("Exit code " ++ toString c)) ∧
    ((pauseDownload jobs id).2 = true →
      ∀ j2 ∈ (pauseDownload jobs id).1, j2.id = id →
        j2.status = .paused ∧
        ∀ (c2 : Option Int), c2 ≠ some 0 →
          (closeHandler downloadFolder watchedFolder j2 c2).1.status =
            .paused ∧
          (closeHandler downloadFolder watchedFolder j2 c2).1.error =
            j2.error) := by
  have hpausedClose : ∀ (j2 : DJob), j2.status = .paused →
      ∀ (c2 : Option Int), c2 ≠ some 0 →
      (closeHandler downloadFolder watchedFolder j2 c2).1.status =
        .paused ∧
      (closeHandler downloadFolder watchedFolder j2 c2).1.error =
        j2.error := by
    intro j2 hp c2 hc2
    unfold closeHandler
    rw [if_neg hc2, if_neg]
    · exact ⟨hp, rfl⟩
    · rintro ⟨hnp, -⟩
      exact hnp hp
  refine ⟨?_, ?_, ?_⟩
  · unfold closeHandler
    rw [if_pos rfl]
    exact ⟨rfl, rfl, by simp⟩
  · intro hc hp
    unfold closeHandler
    rw [if_neg (by simpa using hc), if_pos ⟨hp, by simp⟩]
    exact ⟨rfl, rfl⟩
  · intro hkill j2 hj2 hid
    unfold pauseDownload at hkill hj2
    cases hf : jobs.find? (fun d => decide (d.id = id)) with
    | none =>
      simp [hf] at hkill
    | some dl =>
      by_cases hproc : dl.hasProcess = true
      · simp only [hf, if_pos hproc] at hj2
        have hp := updateFirstJob_paused_unique id jobs hnodup j2 hj2 hid
        exact ⟨hp, hpausedClose j2 hp⟩
      · simp [hf, hproc] at hkill

/-- Sample downloading job with an attached process. -/
def jobD : DJob :=
  ⟨"d1", "https://example/video", "42.0%", "1MiB/s", "00:10",
    .downloading, none, true⟩

/-- Witness for C4: concrete completion, error and pause-then-exit runs. -/
theorem claim_C4_witness :
    (closeHandler "" "W" jobD (some 0)).1.status = .completed ∧
    (closeHandler "" "W" jobD (some 1)).1.error = some "Exit code 1" ∧
    (closeHandler "" "W" { jobD with status := DStatus.paused }
      (some 137)).1.status = .paused := by
  have h := claim_C4 "" "W" jobD 1 [jobD] "d1" (by decide)
  refine ⟨h.1.1, ?_, ?_⟩
  · exact (h.2.1 (by decide) (by decide)).2
  · have h3 := h.2.2 (by decide) { jobD with status := DStatus.paused }
      (by decide) (by decide)
    exact (h3.2 (some 137) (by decide)).1

/-- A device status record (`interface DeviceStatus`, `main.ts:14-19`),
written by `updateDeviceStatus` (`main.ts:348-379`) under
`.cross-player-devices/`. -/
structure DeviceStatus where
  id : String
  name : String
  freeSpace : Nat
  timestamp : Nat
deriving DecidableEq, Repr

/-- Plugin state relevant to the storage-limit calculator: the manual
`storageLimitGB` setting, the device records currently present on disk, and
the calculator's two outputs. -/
structure CalcState where
  storageLimitGB : Nat
  deviceRecords : List DeviceStatus
  dynamicStorageLimit : Nat
  limitingDevice : String
deriving DecidableEq, Repr

/-- `calculateDynamicLimit()` (`main.ts:381-389`): the effective limit is
the manual `storageLimitGB` setting (JavaScript `|| 10` default) in GiB
converted to bytes, and the limiting device reads `"Manual Setting"`; the
device records are never consulted. -/
def calculateDynamicLimit (s : CalcState) : CalcState :=
  { s with
    dynamicStorageLimit :=
      (if s.storageLimitGB = 0 then 10 else s.storageLimitGB) *
        (1024 * 1024 * 1024)
    limitingDevice := "Manual Setting" }

/-- Modelled from the spec: the cooperative-mode ceiling the spec describes
for `calculateDynamicLimit` — the minimum `freeSpace` over device records
not older than the TTL (relative to `now`), plus the current queue size.
No such computation exists anywhere in `src/main.ts`. -/
def specCooperativeCeiling (records : List DeviceStatus)
    (now ttl queueSize : Nat) : Nat :=
  (((records.filter (fun r => decide (now - r.timestamp ≤ ttl))).map
      DeviceStatus.freeSpace).min?.getD 0) + queueSize

/-- C7 counterexample: with manual setting 10 GB, a single fresh (non-stale)
device record reporting 0 free bytes, and an empty queue, the spec's
cooperative formula yields 0 while the code computes 10 GiB: the limit
calculator does not implement the cooperative minimum. -/
theorem claim_C7_counterexample :
    (calculateDynamicLimit
        ⟨10, [⟨"dev", "phone", 0, 0⟩], 0, ""⟩).dynamicStorageLimit ≠
      specCooperativeCeiling [⟨"dev", "phone", 0, 0⟩] 0 60000 0 := by
  decide

/-- C7 (amended): the limit calculator implements only the manual policy:
the effective storage ceiling always equals the manual `storageLimitGB`
setting (default 10 when zero/unset) in GiB converted to bytes, the
limiting device reads `"Manual Setting"`, and the result is independent of
the device status records. -/
theorem claim_C7 (s t : CalcState) :
    (calculateDynamicLimit s).dynamicStorageLimit =
      (if s.storageLimitGB = 0 then 10 else s.storageLimitGB) *
        (1024 * 1024 * 1024) ∧
    (calculateDynamicLimit s).limitingDevice = "Manual Setting" ∧
    (s.storageLimitGB = t.storageLimitGB →
      (calculateDynamicLimit s).dynamicStorageLimit =
        (calculateDynamicLimit t).dynamicStorageLimit) := by
  refine ⟨rfl, rfl, ?_⟩
  intro h
  simp [calculateDynamicLimit, h]

/-- Witness for C7 (amended): two states with the same manual setting but
different device records produce the same limit. -/
theorem claim_C7_witness :
    (calculateDynamicLimit
        ⟨10, [⟨"dev", "phone", 0, 0⟩], 0, ""⟩).dynamicStorageLimit =
      (calculateDynamicLimit ⟨10, [], 0, ""⟩).dynamicStorageLimit :=
  (claim_C7 ⟨10, [⟨"dev", "phone", 0, 0⟩], 0, ""⟩ ⟨10, [], 0, ""⟩).2.2 rfl
